import Mathlib

/-!
File-string-reversal: a verification development for `src/main.cc`

The program reads lines from an input file, reverses the characters of each
line and appends the reversed lines to an output file.

Modelling conventions.

* A `std::string` is a `List Char`; one `Char` stands for one C++ `char`.  The
  code never inspects a character except to compare it with the delimiter
  `'\n'` inside `std::getline`.
* A `std::fstream` is a record of the state the program can observe: whether it
  is open, its open mode, the bytes of the attached file, the bytes that lie
  between the current position and the end of the file, and the three error
  flags.  Every write of the program ends in `std::endl`, which flushes, so the
  bytes of the file are kept in the stream record itself.
* Mutation is explicit state passing: a member function that changes `*this`
  returns the new object next to its result.
* `Logger::log` only prints to standard output; it has no influence on a file
  or on control flow and is left out.  So are the destructors, which flush and
  close, and `iswritable`, which nothing calls.
* Input and output errors of the operating system after a successful open are
  outside the model, and so is the limit `max_size()` of a string.
-/

namespace FileStringReversal

/-- A line: the value of one `std::string`. -/
abbrev Line := List Char

/-- The two `std::ios::openmode` values the program uses. -/
inductive OpenMode where
  /-- The mode `std::ios::in`. -/
  | in_
  /-- The mode `std::ios::in | std::ios::out | std::ios::app`. -/
  | in_out_app
  deriving DecidableEq, Repr

/-- State of a `std::fstream`. -/
structure FStream where
  /-- Result of `is_open()`. -/
  is_open : Bool
  /-- Mode given at construction. -/
  mode : OpenMode
  /-- Bytes of the attached file. -/
  file : List Char
  /-- Bytes from the current position to the end of the file. -/
  unread : List Char
  eofbit : Bool
  failbit : Bool
  badbit : Bool
  deriving DecidableEq, Repr

namespace FStream

/-- Result of `good()`: no error flag is set. -/
def good (s : FStream) : Bool :=
  !(s.eofbit || s.failbit || s.badbit)

/-- Constructor `std::fstream(filePath, mode)`.  The outcome of the operating
system's open is the parameter `os`: `none` when the open fails, otherwise the
bytes the file holds once it is open (no bytes for a file that the append mode
has just created).  A failed open leaves the stream closed with `failbit`. -/
def mk_open (mode : OpenMode) (os : Option (List Char)) : FStream :=
  match os with
  | some content =>
      { is_open := true, mode := mode, file := content, unread := content,
        eofbit := false, failbit := false, badbit := false }
  | none =>
      { is_open := false, mode := mode, file := [], unread := [],
        eofbit := false, failbit := true, badbit := false }

/-- Extraction loop of `std::getline`: characters are taken until the end of
the input or until the delimiter, which is taken but not stored.  Returns the
stored characters, whether the delimiter was met, and the rest of the input. -/
def extract : List Char → Line × Bool × List Char
  | [] => ([], false, [])
  | c :: cs =>
      if c = '\n' then ([], true, cs)
      else
        let r := extract cs
        (c :: r.1, r.2.1, r.2.2)

/-- Call `std::getline(fs, content)` on a fresh empty `content`.  When the
stream is not good the sentry fails: `failbit` is set and nothing is taken.
Otherwise characters are extracted; reaching the end of the input sets
`eofbit`, and `failbit` as well when no character at all was taken.  A stream
that is not open has no input. -/
def getline (s : FStream) : Line × FStream :=
  if s.good then
    let r := extract (if s.is_open then s.unread else [])
    if r.2.1 then
      (r.1, { s with unread := r.2.2 })
    else
      (r.1, { s with unread := [], eofbit := true, failbit := r.1.isEmpty })
  else
    ([], { s with failbit := true })

/-- Statement `fs << data << std::endl`: three output functions in a row, the
insertion of the data, `put` of the newline and `flush`, each behind a sentry.
As in libstdc++, a sentry on a stream that is not good writes nothing and sets
`failbit` only when `badbit` is set.  On a good stream open in append mode the
data and a newline go to the end of the file and are flushed, which leaves the
position at the end of the file.  A good stream that is not open for output
cannot take the newline: the failing function sets `badbit` and the sentry of
the next one sets `failbit`. -/
def put_endl (s : FStream) (data : Line) : FStream :=
  if s.good then
    match s.is_open, s.mode with
    | true, OpenMode.in_out_app =>
        { s with file := s.file ++ data ++ ['\n'], unread := [] }
    | _, _ => { s with failbit := true, badbit := true }
  else
    { s with failbit := s.failbit || s.badbit }

end FStream

/-- Class `FDWithContext`: a stream together with its path. -/
structure FDWithContext where
  fs : FStream
  fpath : String
  deriving DecidableEq, Repr

namespace FDWithContext

/-- Constructor `FDWithContext(filePath, mode)`: throws `std::runtime_error`
when the stream is not open after construction. -/
def new (filePath : String) (mode : OpenMode) (os : Option (List Char)) :
    Except String FDWithContext :=
  let fs := FStream.mk_open mode os
  if !fs.is_open then
    Except.error ("Failed to open file: " ++ filePath)
  else
    Except.ok { fs := fs, fpath := filePath }

/-- Member `read()`: one `std::getline` into a fresh string. -/
def read (h : FDWithContext) : Line × FDWithContext :=
  let r := h.fs.getline
  (r.1, { h with fs := r.2 })

/-- Member `write(data)`: the data followed by `std::endl`. -/
def write (h : FDWithContext) (data : Line) : FDWithContext :=
  { h with fs := h.fs.put_endl data }

/-- Member `isOpen()`. -/
def isOpen (h : FDWithContext) : Bool :=
  h.fs.is_open

end FDWithContext

/-- Class `IOHandler`: owner of the input handle and of the output handle. -/
structure IOHandler where
  in_file : FDWithContext
  out_file : FDWithContext
  deriving DecidableEq, Repr

namespace IOHandler

/-- The `while` loop of `get_original_lines`, started with the lines pushed so
far: while the handle reports open, read a line, leave the loop when the line
is empty, push it back otherwise. -/
def read_loop (in_file : FDWithContext) (lines : List Line) :
    List Line × FDWithContext :=
  if in_file.isOpen then
    if in_file.read.1.isEmpty then
      (lines, in_file.read.2)
    else
      read_loop in_file.read.2 (lines ++ [in_file.read.1])
  else
    (lines, in_file)
termination_by in_file.fs.unread.length
decreasing_by
  rename_i hne
  have hx : ∀ l : List Char,
      (FStream.extract l).1.length + (FStream.extract l).2.2.length ≤ l.length := by
    intro l
    induction l with
    | nil => simp [FStream.extract]
    | cons c cs ih =>
        by_cases hc : c = '\n'
        · simp [FStream.extract, hc]
        · simp [FStream.extract, hc]
          omega
  have hpos : 0 < in_file.read.1.length := by
    cases hl : in_file.read.1 with
    | nil => simp [hl] at hne
    | cons a as => simp
  simp only [FDWithContext.read, FStream.getline] at hpos ⊢
  have h1 := hx in_file.fs.unread
  by_cases hg : in_file.fs.good = true
  · by_cases ho : in_file.fs.is_open = true
    · by_cases hd : (FStream.extract in_file.fs.unread).2.1 = true
      · simp only [hg, ho, hd, if_true] at hpos ⊢
        omega
      · simp only [hg, ho, hd, if_true, Bool.false_eq_true, if_false] at hpos ⊢
        show 0 < in_file.fs.unread.length
        omega
    · simp [hg, ho, FStream.extract] at hpos
  · simp [hg] at hpos

/-- Member `get_original_lines()`: the loop started on an empty vector.  The
result is the vector together with the handler after the reads. -/
def get_original_lines (io : IOHandler) : List Line × IOHandler :=
  let r := read_loop io.in_file []
  (r.1, { io with in_file := r.2 })

/-- Member `persist_reversed_strings(lines)`: one `write` per element, in the
order of the vector. -/
def persist_reversed_strings (io : IOHandler) (lines : List Line) : IOHandler :=
  { io with out_file := lines.foldl (fun h line => h.write line) io.out_file }

/-- The loop of `get_original_lines` run for at most `fuel` iterations; `none`
means that the loop has not left after `fuel` iterations. -/
def read_loop_fuel : Nat → FDWithContext → List Line → Option (List Line × FDWithContext)
  | 0, _, _ => none
  | fuel + 1, in_file, lines =>
      if in_file.isOpen then
        if in_file.read.1.isEmpty then
          some (lines, in_file.read.2)
        else
          read_loop_fuel fuel in_file.read.2 (lines ++ [in_file.read.1])
      else
        some (lines, in_file)

end IOHandler

/-- Algorithm `std::for_each` over a vector with the elements visited in the
order given by `order` (a list of indices): the function is applied in place to
the element at each index in turn. -/
def for_each_in {α : Type} (order : List Nat) (f : α → α) (xs : List α) : List α :=
  order.foldl (fun acc i => List.modify f i acc) xs

/-- Class `StringReverser`: the vector it refers to. -/
structure StringReverser where
  lines : List Line
  deriving DecidableEq, Repr

namespace StringReverser

/-- Static member `reverse_string`: `std::reverse` over the whole string. -/
def reverse_string (str : Line) : Line :=
  str.reverse

/-- Member `manipulate()` under a given visiting order of the elements. -/
def manipulate_in (order : List Nat) (sr : StringReverser) : StringReverser :=
  { lines := for_each_in order reverse_string sr.lines }

/-- Member `manipulate()`: `std::for_each` with `reverse_string` from `begin()`
to `end()`, the elements taken from left to right. -/
def manipulate (sr : StringReverser) : StringReverser :=
  manipulate_in (List.range sr.lines.length) sr

/-- Member `get_out_strings()`: a copy of the vector. -/
def get_out_strings (sr : StringReverser) : List Line :=
  sr.lines

end StringReverser

/-- Class `Main`: the handler it drives. -/
structure Main where
  ioHandler : IOHandler
  deriving DecidableEq, Repr

namespace Main

/-- Member `run()`: read all lines, reverse them in place, persist them. -/
def run (m : Main) : Main :=
  let r := m.ioHandler.get_original_lines
  let string_reverser := (StringReverser.mk r.1).manipulate
  { ioHandler := r.2.persist_reversed_strings string_reverser.get_out_strings }

end Main

/-- Constant `in_file_path` of `main`. -/
def in_file_path : String := "../data/in_file.txt"

/-- Constant `out_file_path` of `main`. -/
def out_file_path : String := "../data/out_file.txt"

/-- The two files of the program as the operating system presents them: for
each path, `none` when it cannot be opened in the mode the program asks for,
otherwise the bytes of the file.  The two paths of `main` are different and are
taken to name two different files, each with its own bytes. -/
structure Files where
  in_file : Option (List Char)
  out_file : Option (List Char)
  deriving DecidableEq, Repr

/-- Function `main`.  The two handles are constructed as arguments of one
constructor call, in an order C++ leaves open: `out_first` tells which one is
constructed first.  An exception of a constructor is caught nowhere and ends
the process (`Except.error`); otherwise `run` is executed and `main` returns
`EXIT_SUCCESS`.  The second component is the state of the two files when the
process ends, the input file being reported as a file of its own. -/
def main (out_first : Bool) (w : Files) : Except String Nat × Files :=
  let handles : Except String (FDWithContext × FDWithContext) :=
    if out_first then
      match FDWithContext.new out_file_path OpenMode.in_out_app w.out_file with
      | Except.error e => Except.error e
      | Except.ok o =>
          match FDWithContext.new in_file_path OpenMode.in_ w.in_file with
          | Except.error e => Except.error e
          | Except.ok i => Except.ok (i, o)
    else
      match FDWithContext.new in_file_path OpenMode.in_ w.in_file with
      | Except.error e => Except.error e
      | Except.ok i =>
          match FDWithContext.new out_file_path OpenMode.in_out_app w.out_file with
          | Except.error e => Except.error e
          | Except.ok o => Except.ok (i, o)
  match handles with
  | Except.error e => (Except.error e, w)
  | Except.ok (i, o) =>
      let job_runner := (Main.mk { in_file := i, out_file := o }).run
      (Except.ok 0,
        { in_file := some job_runner.ioHandler.in_file.fs.file,
          out_file := some job_runner.ioHandler.out_file.fs.file })

/-! ## Vocabulary of the specification -/

/-- Text of a line sequence: every line followed by a line terminator. -/
def unlines : List Line → List Char
  | [] => []
  | l :: ls => l ++ '\n' :: unlines ls

/-- Line sequence of a text: the maximal runs of characters between newline
delimiters, where the empty run after a final newline (or of an empty text) is
not a line. -/
def file_lines (content : List Char) : List Line :=
  let pieces := content.splitOn '\n'
  if pieces.getLast? = some [] then pieces.dropLast else pieces

/-- Handle on a file with the given bytes just after a successful
construction in the given mode. -/
def opened (filePath : String) (mode : OpenMode) (content : List Char) : FDWithContext :=
  { fs := FStream.mk_open mode (some content), fpath := filePath }

/-- States of a handle in which the error flags agree with the position: the
stream is open and, when it is not good, no input is left.  A successful
construction yields such a state and `read` keeps it; a failed `write` on a
handle that is not open for output leaves it. -/
def readable (h : FDWithContext) : Bool :=
  h.fs.is_open && (h.fs.good || h.fs.unread.isEmpty)

/-- Handler over an input file and an output file just after both handles
have been constructed as `main` does. -/
def handler_on (input output : List Char) : IOHandler :=
  { in_file := opened in_file_path OpenMode.in_ input,
    out_file := opened out_file_path OpenMode.in_out_app output }

/-! ## Lemmas on `std::getline` -/

/-- Extraction up to a newline: the characters before it are stored, the
newline is consumed and the rest stays. -/
theorem extract_append_newline (l rest : List Char) (hl : '\n' ∉ l) :
    FStream.extract (l ++ '\n' :: rest) = (l, true, rest) := by
  induction l with
  | nil => simp [FStream.extract]
  | cons c cs ih =>
      have hc : c ≠ '\n' := fun h => hl (by simp [h])
      have hcs : '\n' ∉ cs := fun h => hl (by simp [h])
      simp [FStream.extract, hc, ih hcs]

/-- Extraction from an input without newline: everything is stored and the end
of the input is met. -/
theorem extract_no_newline (l : List Char) (hl : '\n' ∉ l) :
    FStream.extract l = (l, false, []) := by
  induction l with
  | nil => simp [FStream.extract]
  | cons c cs ih =>
      have hc : c ≠ '\n' := fun h => hl (by simp [h])
      have hcs : '\n' ∉ cs := fun h => hl (by simp [h])
      simp [FStream.extract, hc, ih hcs]

/-- Every text either has no newline or splits at its first newline. -/
theorem newline_cases (u : List Char) :
    '\n' ∉ u ∨ ∃ l rest, '\n' ∉ l ∧ u = l ++ '\n' :: rest := by
  induction u with
  | nil => left; simp
  | cons c cs ih =>
      by_cases hc : c = '\n'
      · right
        exact ⟨[], cs, by simp, by simp [hc]⟩
      · rcases ih with h | ⟨l, rest, hl, hu⟩
        · left
          intro hmem
          rcases List.mem_cons.1 hmem with h1 | h1
          · exact hc h1.symm
          · exact h h1
        · right
          refine ⟨c :: l, rest, ?_, by simp [hu]⟩
          intro hmem
          rcases List.mem_cons.1 hmem with h1 | h1
          · exact hc h1.symm
          · exact hl h1

/-- Extraction never produces input: stored and remaining characters together
are at most the input. -/
theorem extract_length (u : List Char) :
    (FStream.extract u).1.length + (FStream.extract u).2.2.length ≤ u.length := by
  rcases newline_cases u with h | ⟨l, rest, hl, hu⟩
  · rw [extract_no_newline u h]; simp
  · rw [hu, extract_append_newline l rest hl]; simp

/-! ## Lemmas on `FDWithContext::read` and on the read loop -/

/-- A read on a good open stream whose input has a newline. -/
theorem read_newline (h : FDWithContext) (l rest : List Char)
    (hopen : h.fs.is_open = true) (hgood : h.fs.good = true)
    (hu : h.fs.unread = l ++ '\n' :: rest) (hl : '\n' ∉ l) :
    h.read = (l, { h with fs := { h.fs with unread := rest } }) := by
  simp [FDWithContext.read, FStream.getline, hopen, hgood, hu,
    extract_append_newline l rest hl]

/-- A read on a good open stream whose input has no newline. -/
theorem read_last (h : FDWithContext)
    (hopen : h.fs.is_open = true) (hgood : h.fs.good = true)
    (hu : '\n' ∉ h.fs.unread) :
    h.read = (h.fs.unread, { h with fs := { h.fs with
      unread := [], eofbit := true, failbit := h.fs.unread.isEmpty } }) := by
  simp [FDWithContext.read, FStream.getline, hopen, hgood,
    extract_no_newline h.fs.unread hu]

/-- A read on a stream that is not good returns the empty line. -/
theorem read_not_good (h : FDWithContext) (hgood : h.fs.good = false) :
    h.read = ([], { h with fs := { h.fs with failbit := true } }) := by
  simp [FDWithContext.read, FStream.getline, hgood]

/-- On a stream that is not good the loop leaves at once. -/
theorem read_loop_not_good (h : FDWithContext) (acc : List Line)
    (hgood : h.fs.good = false) : (IOHandler.read_loop h acc).1 = acc := by
  rw [IOHandler.read_loop]
  by_cases ho : h.isOpen = true
  · simp [ho, read_not_good h hgood]
  · simp [ho]

/-- Lines returned by the loop on a good open stream: the pieces of the unread
input between newlines, up to the first empty piece. -/
theorem read_loop_lines_aux (n : Nat) : ∀ (h : FDWithContext) (acc : List Line),
    h.fs.unread.length = n → h.fs.is_open = true → h.fs.good = true →
    (IOHandler.read_loop h acc).1 =
      acc ++ (h.fs.unread.splitOn '\n').takeWhile (fun l => !l.isEmpty) := by
  induction n using Nat.strong_induction_on with
  | _ n ih =>
    intro h acc hn hopen hgood
    have hio : h.isOpen = true := hopen
    rw [IOHandler.read_loop]
    rcases newline_cases h.fs.unread with hnl | ⟨l, rest, hl, hu⟩
    · have hsplit : h.fs.unread.splitOn '\n' = [h.fs.unread] := by
        apply List.splitOnP_eq_single
        intro x hx hxe
        have : x = '\n' := by simpa using hxe
        exact hnl (this ▸ hx)
      rw [read_last h hopen hgood hnl, hsplit]
      by_cases he : h.fs.unread.isEmpty = true
      · simp [hio, he]
      · simp only [hio, he, if_true, Bool.false_eq_true, if_false]
        rw [read_loop_not_good { h with fs := { h.fs with
          unread := [], eofbit := true, failbit := false } } _ (by simp [FStream.good])]
        simp [he]
    · have hsplit : h.fs.unread.splitOn '\n' = l :: rest.splitOn '\n' := by
        rw [hu]
        apply List.splitOnP_first
        · intro x hx hxe
          have : x = '\n' := by simpa using hxe
          exact hl (this ▸ hx)
        · simp
      rw [read_newline h l rest hopen hgood hu hl, hsplit]
      by_cases he : l.isEmpty = true
      · simp [hio, he]
      · simp only [hio, he, if_true, Bool.false_eq_true, if_false]
        have hlt : rest.length < n := by
          rw [← hn, hu]; simp; omega
        have hgood2 : ({ h with fs := { h.fs with unread := rest } } : FDWithContext).fs.good
            = true := by simpa [FStream.good] using hgood
        rw [ih rest.length hlt { h with fs := { h.fs with unread := rest } } (acc ++ [l])
          rfl hopen hgood2]
        simp [he]

/-- Lines returned by the loop on a good open stream. -/
theorem read_loop_lines (h : FDWithContext) (acc : List Line)
    (hopen : h.fs.is_open = true) (hgood : h.fs.good = true) :
    (IOHandler.read_loop h acc).1 =
      acc ++ (h.fs.unread.splitOn '\n').takeWhile (fun l => !l.isEmpty) :=
  read_loop_lines_aux h.fs.unread.length h acc rfl hopen hgood

/-- A read that returns a non-empty line consumes at least one character. -/
theorem read_consumes (h : FDWithContext) (hne : h.read.1.isEmpty = false) :
    h.read.2.fs.unread.length < h.fs.unread.length := by
  have hpos : 0 < h.read.1.length := by
    cases hl : h.read.1 with
    | nil => simp [hl] at hne
    | cons a as => simp
  have h1 := extract_length h.fs.unread
  simp only [FDWithContext.read, FStream.getline] at hpos ⊢
  by_cases hg : h.fs.good = true
  · by_cases ho : h.fs.is_open = true
    · by_cases hd : (FStream.extract h.fs.unread).2.1 = true
      · simp only [hg, ho, hd, if_true] at hpos ⊢
        omega
      · simp only [hg, ho, hd, if_true, Bool.false_eq_true, if_false] at hpos ⊢
        show 0 < h.fs.unread.length
        omega
    · simp [hg, ho, FStream.extract] at hpos
  · simp [hg] at hpos

/-- With more iterations allowed than there are unread characters, the bounded
loop leaves and agrees with the loop. -/
theorem read_loop_fuel_eq (fuel : Nat) : ∀ (h : FDWithContext) (acc : List Line),
    h.fs.unread.length < fuel →
    IOHandler.read_loop_fuel fuel h acc = some (IOHandler.read_loop h acc) := by
  induction fuel with
  | zero => intro h acc hlt; omega
  | succ k ih =>
      intro h acc hlt
      rw [IOHandler.read_loop, IOHandler.read_loop_fuel]
      by_cases ho : h.isOpen = true
      · by_cases he : h.read.1.isEmpty = true
        · simp [ho, he]
        · simp only [ho, he, if_true, Bool.false_eq_true, if_false]
          apply ih
          have := read_consumes h (by simpa using he)
          omega
      · simp [ho]

/-- Every line the loop adds to the vector is non-empty. -/
theorem read_loop_fuel_nonempty (fuel : Nat) : ∀ (h : FDWithContext) (acc : List Line)
    (r : List Line × FDWithContext), IOHandler.read_loop_fuel fuel h acc = some r →
    ∀ l ∈ r.1, l ∈ acc ∨ l ≠ [] := by
  induction fuel with
  | zero => intro h acc r hr; simp [IOHandler.read_loop_fuel] at hr
  | succ k ih =>
      intro h acc r hr l hl
      rw [IOHandler.read_loop_fuel] at hr
      by_cases ho : h.isOpen = true
      · by_cases he : h.read.1.isEmpty = true
        · simp only [ho, he, if_true, Option.some.injEq] at hr
          subst hr
          exact Or.inl hl
        · simp only [ho, he, if_true, Bool.false_eq_true, if_false] at hr
          rcases ih _ _ r hr l hl with h1 | h1
          · rcases List.mem_append.1 h1 with h2 | h2
            · exact Or.inl h2
            · right
              have : l = h.read.1 := by simpa using h2
              intro hnil
              apply he
              rw [← this, hnil]
              rfl
          · exact Or.inr h1
      · simp only [ho, Bool.false_eq_true, if_false, Option.some.injEq] at hr
        subst hr
        exact Or.inl hl

/-- The loop stops right after the first empty line: on an input made of
non-empty lines, an empty line and any further text, it returns those lines and
leaves the further text unread. -/
theorem read_loop_stops (pre : List Line) (tail : List Char)
    (hpre : ∀ l ∈ pre, l ≠ [] ∧ '\n' ∉ l) :
    ∀ (h : FDWithContext) (acc : List Line),
      h.fs.is_open = true → h.fs.good = true →
      h.fs.unread = unlines pre ++ '\n' :: tail →
      IOHandler.read_loop h acc =
        (acc ++ pre, { h with fs := { h.fs with unread := tail } }) := by
  induction pre with
  | nil =>
      intro h acc hopen hgood hu
      have hio : h.isOpen = true := hopen
      rw [IOHandler.read_loop, read_newline h [] tail hopen hgood (by simpa [unlines] using hu)
        (by simp)]
      simp [hio]
  | cons p ps ih =>
      intro h acc hopen hgood hu
      have hio : h.isOpen = true := hopen
      have hp := hpre p (by simp)
      have hu2 : h.fs.unread = p ++ '\n' :: (unlines ps ++ '\n' :: tail) := by
        simpa [unlines] using hu
      have hpe : p.isEmpty = false := by
        cases p with
        | nil => exact absurd rfl hp.1
        | cons a as => rfl
      rw [IOHandler.read_loop, read_newline h p _ hopen hgood hu2 hp.2]
      simp only [hio, hpe, if_true, Bool.false_eq_true, if_false]
      rw [ih (fun l hl => hpre l (by simp [hl]))
        { h with fs := { h.fs with unread := unlines ps ++ '\n' :: tail } } (acc ++ [p])
        hopen (by simpa [FStream.good] using hgood) rfl]
      simp

/-! ## Lemmas on the vocabulary of the specification -/

/-- Pieces of a text that starts with a newline-free line and a newline. -/
theorem splitOn_line (l rest : List Char) (hl : '\n' ∉ l) :
    (l ++ '\n' :: rest).splitOn '\n' = l :: rest.splitOn '\n' := by
  apply List.splitOnP_first
  · intro x hx hxe
    have : x = '\n' := by simpa using hxe
    exact hl (this ▸ hx)
  · simp

/-- Pieces of the text of a line sequence followed by further text. -/
theorem splitOn_unlines_append (ls : List Line) (tail : List Char)
    (hls : ∀ l ∈ ls, '\n' ∉ l) :
    (unlines ls ++ tail).splitOn '\n' = ls ++ tail.splitOn '\n' := by
  induction ls with
  | nil => simp [unlines]
  | cons l ls ih =>
      have h1 : unlines (l :: ls) ++ tail = l ++ '\n' :: (unlines ls ++ tail) := by
        simp [unlines]
      rw [h1, splitOn_line l _ (hls l (by simp)), ih (fun x hx => hls x (by simp [hx]))]
      simp

/-- The line sequence of the text of a line sequence is that sequence. -/
theorem file_lines_unlines (ls : List Line) (hls : ∀ l ∈ ls, '\n' ∉ l) :
    file_lines (unlines ls) = ls := by
  have h := splitOn_unlines_append ls [] hls
  simp only [List.append_nil, List.splitOn_nil] at h
  simp [file_lines, h]

/-- Dropping a final empty piece does not change the pieces before the first
empty one. -/
theorem takeWhile_file_lines (content : List Char) :
    (file_lines content).takeWhile (fun l => !l.isEmpty) =
      (content.splitOn '\n').takeWhile (fun l => !l.isEmpty) := by
  unfold file_lines
  by_cases hlast : (content.splitOn '\n').getLast? = some []
  · simp only [hlast, if_true]
    have hd := List.dropLast_append_getLast? [] hlast
    have hk : ∀ xs : List Line, (xs ++ [[]]).takeWhile (fun l => !l.isEmpty) =
        xs.takeWhile (fun l => !l.isEmpty) := by
      intro xs
      induction xs with
      | nil => simp
      | cons x xs ihx =>
          by_cases hx : x.isEmpty = true
          · simp [List.takeWhile_cons, hx]
          · simp [List.takeWhile_cons, hx, ihx]
    conv_rhs => rw [← hd]
    rw [hk]
  · simp [hlast]

/-! ## Lemmas on writing -/

/-- Writing a line sequence to a good stream open in append mode appends the
text of the sequence and keeps the stream good, open and in append mode. -/
theorem foldl_write (lines : List Line) : ∀ (h : FDWithContext),
    h.fs.is_open = true → h.fs.mode = OpenMode.in_out_app → h.fs.good = true →
    (lines.foldl (fun h line => h.write line) h).fs.file = h.fs.file ++ unlines lines := by
  induction lines with
  | nil => intro h _ _ _; simp [unlines]
  | cons l ls ih =>
      intro h hopen hmode hgood
      have hw : h.write l =
          { h with fs := { h.fs with file := h.fs.file ++ l ++ ['\n'], unread := [] } } := by
        simp [FDWithContext.write, FStream.put_endl, hopen, hmode, hgood]
      have h2 := ih (h.write l) (by rw [hw]; exact hopen) (by rw [hw]; exact hmode)
        (by rw [hw]; simpa [FStream.good] using hgood)
      rw [List.foldl_cons, h2, hw]
      simp [unlines]

/-! ## Lemmas on `std::for_each` -/

/-- Element at an index after visiting the indices of a duplicate-free order:
the function has been applied exactly at the visited indices. -/
theorem getElem?_for_each_in {α : Type} (f : α → α) (order : List Nat) :
    ∀ (xs : List α) (i : Nat), order.Nodup →
    (for_each_in order f xs)[i]? = if i ∈ order then xs[i]?.map f else xs[i]? := by
  induction order with
  | nil => intro xs i _; simp [for_each_in]
  | cons j rest ih =>
      intro xs i hnd
      have hj : j ∉ rest := (List.nodup_cons.1 hnd).1
      have hrest : rest.Nodup := (List.nodup_cons.1 hnd).2
      have hstep : for_each_in (j :: rest) f xs = for_each_in rest f (List.modify f j xs) := by
        simp [for_each_in]
      rw [hstep, ih _ i hrest, List.getElem?_modify]
      by_cases hij : j = i
      · subst hij
        simp [hj]
      · have hij2 : i ≠ j := fun h => hij h.symm
        by_cases hir : i ∈ rest
        · simp [hij, hij2, hir]
        · simp [hij, hij2, hir]

/-- Visiting every index once, in any order, applies the function to every
element. -/
theorem for_each_in_perm {α : Type} (f : α → α) (order : List Nat) (xs : List α)
    (hperm : order.Perm (List.range xs.length)) :
    for_each_in order f xs = xs.map f := by
  apply List.ext_getElem?
  intro i
  have hnd : order.Nodup := hperm.nodup_iff.2 (List.nodup_range _)
  rw [getElem?_for_each_in f order xs i hnd]
  by_cases hi : i < xs.length
  · have : i ∈ order := hperm.mem_iff.2 (List.mem_range.2 hi)
    simp [this]
  · have : i ∉ order := fun h => hi (List.mem_range.1 (hperm.mem_iff.1 h))
    have hnone : xs[i]? = none := List.getElem?_eq_none (by omega)
    simp [this, hnone]

/-- Member `manipulate` maps `reverse_string` over the vector. -/
theorem manipulate_lines (sr : StringReverser) :
    sr.manipulate.lines = sr.lines.map StringReverser.reverse_string := by
  simp only [StringReverser.manipulate, StringReverser.manipulate_in]
  exact for_each_in_perm _ _ _ (List.Perm.refl _)

/-! ## Lemmas on the handler and on `Main::run` -/

/-- A successful construction yields the handle `opened`. -/
theorem new_some (filePath : String) (mode : OpenMode) (content : List Char) :
    FDWithContext.new filePath mode (some content) =
      Except.ok (opened filePath mode content) := by
  simp [FDWithContext.new, FStream.mk_open, opened]

/-- A failed open makes the constructor throw. -/
theorem new_none (filePath : String) (mode : OpenMode) :
    FDWithContext.new filePath mode none =
      Except.error ("Failed to open file: " ++ filePath) := by
  simp [FDWithContext.new, FStream.mk_open]

/-- Lines returned by `get_original_lines` on a freshly opened input. -/
theorem get_original_lines_fresh (input output : List Char) :
    (handler_on input output).get_original_lines.1 =
      (file_lines input).takeWhile (fun l => !l.isEmpty) := by
  rw [takeWhile_file_lines]
  have h := read_loop_lines (opened in_file_path OpenMode.in_ input) [] rfl rfl
  simpa [IOHandler.get_original_lines, handler_on, opened, FStream.mk_open] using h

/-- Text appended by `persist_reversed_strings` to a freshly opened output. -/
theorem persist_fresh (in_file : FDWithContext) (filePath : String)
    (output : List Char) (lines : List Line) :
    (IOHandler.persist_reversed_strings
      { in_file := in_file, out_file := opened filePath OpenMode.in_out_app output }
      lines).out_file.fs.file = output ++ unlines lines := by
  have h := foldl_write lines (opened filePath OpenMode.in_out_app output) rfl rfl rfl
  simpa [IOHandler.persist_reversed_strings, opened, FStream.mk_open] using h

/-- Output file after `Main::run` on freshly opened files, in terms of the
lines that were read. -/
theorem run_out_file_read (input output : List Char) :
    (Main.run { ioHandler := handler_on input output }).ioHandler.out_file.fs.file =
      output ++ unlines ((handler_on input output).get_original_lines.1.map List.reverse) := by
  have hm := manipulate_lines
    { lines := (handler_on input output).get_original_lines.1 }
  have hp := persist_fresh (handler_on input output).get_original_lines.2.in_file
    out_file_path output
    ((handler_on input output).get_original_lines.1.map List.reverse)
  have hrev : StringReverser.reverse_string = List.reverse := rfl
  simp only [Main.run, StringReverser.get_out_strings, hm, hrev]
  exact hp

/-- Output file after `Main::run` on freshly opened files. -/
theorem run_out_file (input output : List Char) :
    (Main.run { ioHandler := handler_on input output }).ioHandler.out_file.fs.file =
      output ++
        unlines (((file_lines input).takeWhile (fun l => !l.isEmpty)).map List.reverse) := by
  rw [run_out_file_read, get_original_lines_fresh]

/-- No piece between newlines contains a newline. -/
theorem splitOn_no_newline (n : Nat) : ∀ u : List Char, u.length = n →
    ∀ l ∈ u.splitOn '\n', '\n' ∉ l := by
  induction n using Nat.strong_induction_on with
  | _ n ih =>
    intro u hn l hl
    rcases newline_cases u with hnl | ⟨a, rest, ha, hu⟩
    · have hsplit : u.splitOn '\n' = [u] := by
        apply List.splitOnP_eq_single
        intro x hx hxe
        have : x = '\n' := by simpa using hxe
        exact hnl (this ▸ hx)
      rw [hsplit] at hl
      have : l = u := by simpa using hl
      rw [this]; exact hnl
    · rw [hu, splitOn_line a rest ha] at hl
      rcases List.mem_cons.1 hl with h1 | h1
      · rw [h1]; exact ha
      · exact ih rest.length (by rw [← hn, hu]; simp; omega) rest rfl l h1

/-- The lines of a text contain no newline. -/
theorem file_lines_no_newline (content : List Char) :
    ∀ l ∈ file_lines content, '\n' ∉ l := by
  intro l hl
  apply splitOn_no_newline content.length content rfl l
  unfold file_lines at hl
  by_cases hlast : (content.splitOn '\n').getLast? = some []
  · simp only [hlast, if_true] at hl
    exact List.mem_of_mem_dropLast hl
  · simpa [hlast] using hl

/-- The lines before the first empty line are non-empty and free of newlines. -/
theorem takeWhile_lines_spec (content : List Char) :
    ∀ l ∈ (file_lines content).takeWhile (fun l => !l.isEmpty), l ≠ [] ∧ '\n' ∉ l := by
  intro l hl
  constructor
  · have := List.mem_takeWhile_imp hl
    intro hnil
    simp [hnil] at this
  · exact file_lines_no_newline content l ((List.takeWhile_sublist _).subset hl)

/-- A sequence of non-empty lines is its own prefix before the first empty
line. -/
theorem takeWhile_all_nonempty (ls : List Line) (hls : ∀ l ∈ ls, l ≠ []) :
    ls.takeWhile (fun l => !l.isEmpty) = ls := by
  induction ls with
  | nil => rfl
  | cons x xs ih =>
      have hx : x.isEmpty = false := by
        cases x with
        | nil => exact absurd rfl (hls [] (by simp))
        | cons a as => rfl
      simp [List.takeWhile_cons, hx, ih (fun l hl => hls l (by simp [hl]))]

/-- A read does not change the bytes of the file. -/
theorem read_file (h : FDWithContext) : h.read.2.fs.file = h.fs.file := by
  simp only [FDWithContext.read, FStream.getline]
  by_cases hg : h.fs.good = true
  · by_cases hd : (FStream.extract (if h.fs.is_open = true then h.fs.unread else [])).2.1 = true
    · simp [hg, hd]
    · simp [hg, hd]
  · simp [hg]

/-! ## The claims -/

/-- C1: for every input file content and every pre-existing output content,
`Main::run` appends exactly the reversals of the lines it read, one terminated
line each; the written lines contain no newline, there are at most as many as
the input has lines, and at every position `i` at which a line is written that
line is the reversal of the `i`-th line of the input.  Input
`["hello", "world"]` with an empty output gives `["olleh", "dlrow"]`. -/
theorem C1_run_reverses_line_by_line (input output : List Char) :
    (Main.run { ioHandler := handler_on input output }).ioHandler.out_file.fs.file =
        output ++ unlines ((handler_on input output).get_original_lines.1.map List.reverse) ∧
    (∀ l ∈ (handler_on input output).get_original_lines.1.map List.reverse, '\n' ∉ l) ∧
    ((handler_on input output).get_original_lines.1.map List.reverse).length ≤
        (file_lines input).length ∧
    (∀ i, i < ((handler_on input output).get_original_lines.1.map List.reverse).length →
      ((handler_on input output).get_original_lines.1.map List.reverse)[i]? =
        ((file_lines input)[i]?).map List.reverse) ∧
    (Main.run { ioHandler := handler_on (unlines ["hello".toList, "world".toList]) [] }
        ).ioHandler.out_file.fs.file = unlines ["olleh".toList, "dlrow".toList] := by
  refine ⟨run_out_file_read input output, ?_, ?_, ?_, ?_⟩
  · intro l hl
    rw [get_original_lines_fresh] at hl
    rcases List.mem_map.1 hl with ⟨a, ha, rfl⟩
    have := (takeWhile_lines_spec input a ha).2
    simpa using this
  · rw [get_original_lines_fresh, List.length_map]
    exact (List.takeWhile_sublist _).length_le
  · intro i hi
    rw [get_original_lines_fresh] at hi ⊢
    rw [List.length_map] at hi
    rw [List.getElem?_map]
    congr 1
    rcases List.takeWhile_prefix (l := file_lines input) (fun l => !l.isEmpty) with ⟨t, ht⟩
    conv_rhs => rw [← ht]
    rw [List.getElem?_append_left hi]
  · rw [run_out_file]
    decide

/-- C1, at a concrete input: with input text `"ab\ncd\n"` and output `"x"`,
position `1` is written and holds the reversal of the second input line. -/
theorem C1_run_reverses_line_by_line_witness :
    1 < ((handler_on "ab\ncd\n".toList "x".toList).get_original_lines.1.map
          List.reverse).length ∧
    ((handler_on "ab\ncd\n".toList "x".toList).get_original_lines.1.map List.reverse)[1]? =
      ((file_lines "ab\ncd\n".toList)[1]?).map List.reverse :=
  ⟨by rw [get_original_lines_fresh]; decide,
    (C1_run_reverses_line_by_line "ab\ncd\n".toList "x".toList).2.2.2.1 1
      (by rw [get_original_lines_fresh]; decide)⟩

/-- C2: on a freshly opened input, `get_original_lines` returns the lines of
the file that precede its first empty line (all of them when none is empty), in
order.  When the input is a sequence of non-empty lines, an empty line and any
further text, the returned lines are that sequence, the further text stays
unread in the stream, and only the reversals of that sequence reach the output.
Input `["abc", "", "xyz"]` gives output `["cba"]` only, and an input whose first
line is empty gives no output line. -/
theorem C2_reading_stops_at_first_empty_line (input output : List Char) :
    (handler_on input output).get_original_lines.1 =
        (file_lines input).takeWhile (fun l => !l.isEmpty) ∧
    (∀ (pre : List Line) (rest : List Char), (∀ l ∈ pre, l ≠ [] ∧ '\n' ∉ l) →
      input = unlines pre ++ '\n' :: rest →
        (handler_on input output).get_original_lines.1 = pre ∧
        (handler_on input output).get_original_lines.2.in_file.fs.unread = rest ∧
        (Main.run { ioHandler := handler_on input output }).ioHandler.out_file.fs.file =
          output ++ unlines (pre.map List.reverse)) ∧
    (Main.run { ioHandler := handler_on (unlines ["abc".toList, [], "xyz".toList]) [] }
        ).ioHandler.out_file.fs.file = unlines ["cba".toList] ∧
    (∀ rest : List Char,
      (handler_on ('\n' :: rest) output).get_original_lines.1 = [] ∧
      (Main.run { ioHandler := handler_on ('\n' :: rest) output }).ioHandler.out_file.fs.file =
        output) := by
  have hstop : ∀ (inp : List Char) (pre : List Line) (rest : List Char),
      (∀ l ∈ pre, l ≠ [] ∧ '\n' ∉ l) → inp = unlines pre ++ '\n' :: rest →
      (handler_on inp output).get_original_lines.1 = pre ∧
      (handler_on inp output).get_original_lines.2.in_file.fs.unread = rest := by
    intro inp pre rest hpre hin
    have h := read_loop_stops pre rest hpre (opened in_file_path OpenMode.in_ inp) []
      rfl rfl (by simpa [opened, FStream.mk_open] using hin)
    simp [IOHandler.get_original_lines, handler_on, h]
  refine ⟨get_original_lines_fresh input output, ?_, ?_, ?_⟩
  · intro pre rest hpre hin
    have h := hstop input pre rest hpre hin
    refine ⟨h.1, h.2, ?_⟩
    rw [run_out_file_read, h.1]
  · rw [run_out_file]
    decide
  · intro rest
    have h := hstop ('\n' :: rest) [] rest (by simp) (by simp [unlines])
    refine ⟨h.1, ?_⟩
    rw [run_out_file_read, h.1]
    simp [unlines]

/-- C2, at a concrete input: the text `"abc\n\nxyz\n"` is the line `"abc"`, an
empty line and the further text `"xyz\n"`; only `"abc"` is returned and
`"xyz\n"` stays unread. -/
theorem C2_reading_stops_at_first_empty_line_witness :
    (∀ l ∈ ["abc".toList], l ≠ [] ∧ '\n' ∉ l) ∧
    "abc\n\nxyz\n".toList = unlines ["abc".toList] ++ '\n' :: "xyz\n".toList ∧
    (handler_on "abc\n\nxyz\n".toList []).get_original_lines.1 = ["abc".toList] ∧
    (handler_on "abc\n\nxyz\n".toList []).get_original_lines.2.in_file.fs.unread =
      "xyz\n".toList ∧
    (Main.run { ioHandler := handler_on "abc\n\nxyz\n".toList [] }).ioHandler.out_file.fs.file =
      [] ++ unlines (["abc".toList].map List.reverse) :=
  ⟨by decide, by decide,
    (C2_reading_stops_at_first_empty_line "abc\n\nxyz\n".toList []).2.1
      ["abc".toList] "xyz\n".toList (by decide) (by decide)⟩

/-- C3: when the input file has `N` lines, none of them empty,
`get_original_lines` returns `N` lines, `manipulate` keeps the count, and the
text that `Main::run` appends to the output is a sequence of `N` lines. -/
theorem C3_output_has_as_many_lines_as_input (input output : List Char)
    (hne : ∀ l ∈ file_lines input, l ≠ []) :
    (handler_on input output).get_original_lines.1.length = (file_lines input).length ∧
    (StringReverser.mk (handler_on input output).get_original_lines.1
        ).manipulate.get_out_strings.length = (file_lines input).length ∧
    ∃ appended : List Char,
      (Main.run { ioHandler := handler_on input output }).ioHandler.out_file.fs.file =
        output ++ appended ∧
      (file_lines appended).length = (file_lines input).length := by
  have hread : (handler_on input output).get_original_lines.1 = file_lines input := by
    rw [get_original_lines_fresh, takeWhile_all_nonempty _ hne]
  refine ⟨by rw [hread], ?_, ?_⟩
  · simp [StringReverser.get_out_strings, manipulate_lines, hread]
  · refine ⟨unlines ((file_lines input).map List.reverse), ?_, ?_⟩
    · rw [run_out_file_read, hread]
    · rw [file_lines_unlines, List.length_map]
      intro l hl
      rcases List.mem_map.1 hl with ⟨a, ha, rfl⟩
      simpa using file_lines_no_newline input a ha

/-- C3, at a concrete input: the text `"ab\ncd\n"` has two non-empty lines. -/
theorem C3_output_has_as_many_lines_as_input_witness :
    (∀ l ∈ file_lines "ab\ncd\n".toList, l ≠ []) ∧
    (handler_on "ab\ncd\n".toList "x".toList).get_original_lines.1.length = 2 ∧
    (StringReverser.mk (handler_on "ab\ncd\n".toList "x".toList).get_original_lines.1
        ).manipulate.get_out_strings.length = 2 ∧
    ∃ appended : List Char,
      (Main.run { ioHandler := handler_on "ab\ncd\n".toList "x".toList }
        ).ioHandler.out_file.fs.file = "x".toList ++ appended ∧
      (file_lines appended).length = 2 :=
  ⟨by decide,
    C3_output_has_as_many_lines_as_input "ab\ncd\n".toList "x".toList (by decide)⟩

/-- C4: on an output handle constructed in append mode over a file with
content `C`, `persist_reversed_strings` leaves the file with `C` followed by
each line of the sequence and a line terminator, in sequence order; `C` stays
a prefix, the input handle is not touched, and a single `write` appends its
data and one terminator. -/
theorem C4_persist_appends_to_existing_content (filePath : String) (C : List Char)
    (L : List Line) (in_file : FDWithContext) :
    FDWithContext.new filePath OpenMode.in_out_app (some C) =
        Except.ok (opened filePath OpenMode.in_out_app C) ∧
    (IOHandler.persist_reversed_strings
        { in_file := in_file, out_file := opened filePath OpenMode.in_out_app C }
        L).out_file.fs.file = C ++ unlines L ∧
    C <+: (IOHandler.persist_reversed_strings
        { in_file := in_file, out_file := opened filePath OpenMode.in_out_app C }
        L).out_file.fs.file ∧
    (IOHandler.persist_reversed_strings
        { in_file := in_file, out_file := opened filePath OpenMode.in_out_app C }
        L).in_file = in_file ∧
    (∀ data : Line,
      ((opened filePath OpenMode.in_out_app C).write data).fs.file = C ++ data ++ ['\n']) := by
  refine ⟨new_some _ _ _, persist_fresh _ _ _ _, ?_, rfl, ?_⟩
  · rw [persist_fresh]
    exact List.prefix_append _ _
  · intro data
    simp [FDWithContext.write, FStream.put_endl, opened, FStream.mk_open, FStream.good]

/-- C5: `reverse_string` applied twice is the identity on every line, the
empty line and one-character lines included, and `manipulate` invoked twice
restores the sequence. -/
theorem C5_double_reversal_is_identity (line : Line) (sr : StringReverser) :
    StringReverser.reverse_string (StringReverser.reverse_string line) = line ∧
    StringReverser.reverse_string [] = [] ∧
    (∀ c : Char, StringReverser.reverse_string [c] = [c]) ∧
    sr.manipulate.manipulate = sr := by
  refine ⟨by simp [StringReverser.reverse_string], rfl, fun c => rfl, ?_⟩
  have h1 := manipulate_lines sr.manipulate
  rw [manipulate_lines sr] at h1
  have hrev : StringReverser.reverse_string = List.reverse := rfl
  have h2 : sr.manipulate.manipulate.lines = sr.lines := by
    rw [h1, hrev, List.map_map]
    simp
  cases hsr : sr.manipulate.manipulate with
  | mk ls =>
      cases sr with
      | mk ls0 =>
          rw [hsr] at h2
          simp at h2
          rw [h2]

/-- C6: the constructor of `FDWithContext` throws exactly when the stream is
not open after construction, which is exactly when the open failed.  When the
open of the input path or of the output path fails, `main` ends with the
uncaught exception and both files are as they were; when both opens succeed,
`main` returns exit code `0` after appending the reversed lines. -/
theorem C6_open_failure_is_fatal (out_first : Bool) (w : Files) :
    (∀ (filePath : String) (mode : OpenMode) (os : Option (List Char)),
      ((∃ msg, FDWithContext.new filePath mode os = Except.error msg) ↔
        (FStream.mk_open mode os).is_open = false) ∧
      ((FStream.mk_open mode os).is_open = false ↔ os = none)) ∧
    ((w.in_file = none ∨ w.out_file = none) →
      (∃ msg, (main out_first w).1 = Except.error msg) ∧ (main out_first w).2 = w) ∧
    (∀ input output : List Char, w.in_file = some input → w.out_file = some output →
      (main out_first w).1 = Except.ok 0 ∧
      (main out_first w).2.out_file = some (output ++
        unlines (((file_lines input).takeWhile (fun l => !l.isEmpty)).map List.reverse))) := by
  refine ⟨?_, ?_, ?_⟩
  · intro filePath mode os
    cases os with
    | none => simp [FDWithContext.new, FStream.mk_open]
    | some c => simp [FDWithContext.new, FStream.mk_open]
  · intro hfail
    cases w with
    | mk wi wo =>
      cases wi with
      | none =>
          cases wo with
          | none => cases out_first <;> simp [main, new_none]
          | some o => cases out_first <;> simp [main, new_none, new_some]
      | some i =>
          cases wo with
          | none => cases out_first <;> simp [main, new_none, new_some]
          | some o => simp at hfail
  · intro input output hin hout
    cases w with
    | mk wi wo =>
      simp only at hin hout
      subst hin
      subst hout
      have hrun := run_out_file input output
      cases out_first
      · refine ⟨?_, ?_⟩
        · simp [main, new_some]
        · simp only [main, new_some, Bool.false_eq_true, if_false]
          exact congrArg some hrun
      · refine ⟨?_, ?_⟩
        · simp [main, new_some]
        · simp only [main, new_some, if_true]
          exact congrArg some hrun

/-- C6, at concrete inputs: with no input file and an output file holding
`"x"`, `main` ends with an exception and the files are unchanged; with input
`"ab\n"` and output `"x"`, `main` returns `0` and the output holds `"xba\n"`. -/
theorem C6_open_failure_is_fatal_witness :
    ((∃ msg, (main true { in_file := none, out_file := some "x".toList }).1 =
        Except.error msg) ∧
      (main true { in_file := none, out_file := some "x".toList }).2 =
        { in_file := none, out_file := some "x".toList }) ∧
    ((main false { in_file := some "ab\n".toList, out_file := some "x".toList }).1 =
        Except.ok 0 ∧
      (main false { in_file := some "ab\n".toList, out_file := some "x".toList }).2.out_file =
        some ("x".toList ++ unlines
          (((file_lines "ab\n".toList).takeWhile (fun l => !l.isEmpty)).map List.reverse))) :=
  ⟨(C6_open_failure_is_fatal true { in_file := none, out_file := some "x".toList }).2.1
      (Or.inl rfl),
    (C6_open_failure_is_fatal false
      { in_file := some "ab\n".toList, out_file := some "x".toList }).2.2
      "ab\n".toList "x".toList rfl rfl⟩

/-- C7, the claim as stated fails: a handle constructed in mode `std::ios::in`
on the text `"ab\n"` is open; after one `write` on it, which fails and sets
`badbit`, the line `"ab"` is still unread, yet `read` returns the empty line
and does not advance.  So it is not true of every stream state that `read`
returns the characters up to the next newline and advances past it. -/
theorem C7_read_in_every_state_counterexample :
    ((opened in_file_path OpenMode.in_ "ab\n".toList).write "x".toList).isOpen = true ∧
    ((opened in_file_path OpenMode.in_ "ab\n".toList).write "x".toList).fs.badbit = true ∧
    ((opened in_file_path OpenMode.in_ "ab\n".toList).write "x".toList).fs.unread =
      "ab".toList ++ '\n' :: [] ∧
    ((opened in_file_path OpenMode.in_ "ab\n".toList).write "x".toList).read.1 = [] ∧
    ((opened in_file_path OpenMode.in_ "ab\n".toList).write "x".toList).read.2.fs.unread =
      "ab\n".toList ∧
    ¬ (∀ (h : FDWithContext) (l rest : List Char), '\n' ∉ l →
        h.fs.unread = l ++ '\n' :: rest → h.read.1 = l ∧ h.read.2.fs.unread = rest) := by
  refine ⟨by decide, by decide, by decide, by decide, by decide, ?_⟩
  intro hall
  have h1 := (hall ((opened in_file_path OpenMode.in_ "ab\n".toList).write "x".toList)
    "ab".toList [] (by decide) (by decide)).1
  revert h1
  decide

/-- C7, amended: in every state of a stream that is open and whose error flags
agree with its position (no error flag is set, or no input is left), `read`
returns the characters up to but excluding the next newline and leaves the
stream just after that newline, or returns all remaining characters and leaves
the stream at its end when no newline is left; at the end of the stream it
returns the empty line, the value it also returns for an empty line; the state
after the read is again of that kind.  A successful construction yields such a
state, so these are all states reached by reads alone.  In every state with an
error flag set, of that kind or not, `read` returns the empty line and does not
advance; and no read changes the bytes of the file. -/
theorem C7_read_returns_next_line (h : FDWithContext) :
    (readable h = true →
      (∀ (l rest : List Char), '\n' ∉ l → h.fs.unread = l ++ '\n' :: rest →
        h.read.1 = l ∧ h.read.2.fs.unread = rest) ∧
      ('\n' ∉ h.fs.unread → h.read.1 = h.fs.unread ∧ h.read.2.fs.unread = []) ∧
      (h.fs.unread = [] → h.read.1 = []) ∧
      (∀ rest : List Char, h.fs.unread = '\n' :: rest → h.read.1 = []) ∧
      readable h.read.2 = true) ∧
    (h.fs.good = false → h.read.1 = [] ∧ h.read.2.fs.unread = h.fs.unread) ∧
    h.read.2.fs.file = h.fs.file ∧
    (∀ (filePath : String) (mode : OpenMode) (content : List Char),
      readable (opened filePath mode content) = true) := by
  refine ⟨?_, ?_, read_file h, ?_⟩
  · intro hr
    have hopen : h.fs.is_open = true := by
      simp only [readable, Bool.and_eq_true] at hr
      exact hr.1
    have hstate : h.fs.good = true ∨ (h.fs.good = false ∧ h.fs.unread = []) := by
      simp only [readable, Bool.and_eq_true, Bool.or_eq_true] at hr
      rcases hr.2 with hg | hu
      · exact Or.inl hg
      · by_cases hg : h.fs.good = true
        · exact Or.inl hg
        · exact Or.inr ⟨by simpa using hg, by simpa using hu⟩
    have hline : ∀ (l rest : List Char), '\n' ∉ l → h.fs.unread = l ++ '\n' :: rest →
        h.read.1 = l ∧ h.read.2.fs.unread = rest := by
      intro l rest hl hu
      rcases hstate with hg | ⟨_, hnil⟩
      · rw [read_newline h l rest hopen hg hu hl]
        exact ⟨rfl, rfl⟩
      · rw [hnil] at hu
        simp at hu
    have hlast : '\n' ∉ h.fs.unread → h.read.1 = h.fs.unread ∧ h.read.2.fs.unread = [] := by
      intro hnl
      rcases hstate with hg | ⟨hg, hnil⟩
      · rw [read_last h hopen hg hnl]
        exact ⟨rfl, rfl⟩
      · rw [read_not_good h hg]
        exact ⟨hnil.symm, hnil⟩
    refine ⟨hline, hlast, ?_, ?_, ?_⟩
    · intro hnil
      have := (hlast (by rw [hnil]; simp)).1
      rw [this, hnil]
    · intro rest hu
      exact (hline [] rest (by simp) (by simpa using hu)).1
    · rcases hstate with hg | ⟨hg, hnil⟩
      · rcases newline_cases h.fs.unread with hnl | ⟨l, rest, hl, hu⟩
        · rw [read_last h hopen hg hnl]
          simp [readable, hopen]
        · rw [read_newline h l rest hopen hg hu hl]
          simp only [readable, hopen, Bool.true_and, Bool.or_eq_true]
          left
          simpa [FStream.good] using hg
      · rw [read_not_good h hg]
        simp [readable, hopen, hnil]
  · intro hg
    rw [read_not_good h hg]
    exact ⟨rfl, rfl⟩
  · intro filePath mode content
    simp [readable, opened, FStream.mk_open, FStream.good]

/-- C7, amended, at concrete states: a stream opened on `"ab\ncd"` returns
`"ab"` and stands before `"cd"`; the same stream after a failed `write` is not
good, returns the empty line and stays before `"ab\ncd"`. -/
theorem C7_read_returns_next_line_witness :
    (readable (opened in_file_path OpenMode.in_ "ab\ncd".toList) = true ∧
      (opened in_file_path OpenMode.in_ "ab\ncd".toList).read.1 = "ab".toList ∧
      (opened in_file_path OpenMode.in_ "ab\ncd".toList).read.2.fs.unread = "cd".toList) ∧
    (((opened in_file_path OpenMode.in_ "ab\ncd".toList).write "x".toList).fs.good = false ∧
      ((opened in_file_path OpenMode.in_ "ab\ncd".toList).write "x".toList).read.1 = [] ∧
      ((opened in_file_path OpenMode.in_ "ab\ncd".toList).write "x".toList).read.2.fs.unread =
        ((opened in_file_path OpenMode.in_ "ab\ncd".toList).write "x".toList).fs.unread) :=
  ⟨⟨by decide,
    ((C7_read_returns_next_line (opened in_file_path OpenMode.in_ "ab\ncd".toList)).1
      (by decide)).1 "ab".toList "cd".toList (by decide) (by decide)⟩,
   ⟨by decide,
    (C7_read_returns_next_line
      ((opened in_file_path OpenMode.in_ "ab\ncd".toList).write "x".toList)).2.1 (by decide)⟩⟩

/-- C8: `manipulate` replaces every line by its reversal, and the order in
which the elements are visited does not matter: visiting every index once in
any permutation of the indices gives the same sequence as the left-to-right
pass, namely the element-wise reversal, of the same length and in the same
line order. -/
theorem C8_manipulate_is_order_independent (sr : StringReverser) (order : List Nat)
    (hperm : order.Perm (List.range sr.lines.length)) :
    StringReverser.manipulate_in order sr = sr.manipulate ∧
    sr.manipulate.lines = sr.lines.map List.reverse ∧
    sr.manipulate.lines.length = sr.lines.length ∧
    (∀ i : Nat, sr.manipulate.lines[i]? = (sr.lines[i]?).map List.reverse) := by
  have hrev : StringReverser.reverse_string = List.reverse := rfl
  have hm : sr.manipulate.lines = sr.lines.map List.reverse := by
    rw [manipulate_lines, hrev]
  refine ⟨?_, hm, by rw [hm, List.length_map], fun i => by rw [hm, List.getElem?_map]⟩
  simp only [StringReverser.manipulate, StringReverser.manipulate_in]
  rw [for_each_in_perm _ order _ hperm, for_each_in_perm _ _ _ (List.Perm.refl _)]

/-- C8, at a concrete input: three lines visited in the order `2, 0, 1`. -/
theorem C8_manipulate_is_order_independent_witness :
    [2, 0, 1].Perm (List.range
      (StringReverser.mk ["ab".toList, "cde".toList, "f".toList]).lines.length) ∧
    StringReverser.manipulate_in [2, 0, 1]
        (StringReverser.mk ["ab".toList, "cde".toList, "f".toList]) =
      (StringReverser.mk ["ab".toList, "cde".toList, "f".toList]).manipulate :=
  ⟨by decide,
    (C8_manipulate_is_order_independent
      (StringReverser.mk ["ab".toList, "cde".toList, "f".toList]) [2, 0, 1] (by decide)).1⟩

/-- C9: the read loop of `get_original_lines` terminates in every state of the
input handle: it leaves within one iteration more than there are unread
characters, because a read that returns a non-empty line consumes at least one
character and a read at the end of the stream returns the empty line; the
returned sequence never contains an empty line. -/
theorem C9_read_loop_terminates (h : FDWithContext) :
    IOHandler.read_loop_fuel (h.fs.unread.length + 1) h [] =
        some (IOHandler.read_loop h []) ∧
    (∀ fuel : Nat, h.fs.unread.length < fuel →
      IOHandler.read_loop_fuel fuel h [] = some (IOHandler.read_loop h [])) ∧
    (h.read.1 ≠ [] → h.read.2.fs.unread.length < h.fs.unread.length) ∧
    (h.fs.unread = [] → h.read.1 = []) ∧
    (∀ l ∈ (IOHandler.read_loop h []).1, l ≠ []) ∧
    (∀ io : IOHandler, io.in_file = h → ∀ l ∈ io.get_original_lines.1, l ≠ []) := by
  have hfuel := read_loop_fuel_eq (h.fs.unread.length + 1) h [] (Nat.lt_succ_self _)
  have hne : ∀ l ∈ (IOHandler.read_loop h []).1, l ≠ [] := by
    intro l hl
    rcases read_loop_fuel_nonempty _ h [] _ hfuel l hl with h1 | h1
    · simp at h1
    · exact h1
  refine ⟨hfuel, fun fuel hlt => read_loop_fuel_eq fuel h [] hlt, ?_, ?_, hne, ?_⟩
  · intro hl
    apply read_consumes
    cases hc : h.read.1 with
    | nil => exact absurd hc hl
    | cons a as => rfl
  · intro hnil
    simp only [FDWithContext.read, FStream.getline, hnil]
    by_cases hg : h.fs.good = true
    · simp [hg, FStream.extract]
    · simp [hg]
  · intro io hio l hl
    subst hio
    exact hne l hl

/-- C9, at a concrete state: on a stream opened on `"ab\ncd"` the first read
returns a non-empty line and leaves fewer unread characters, and the handler
returns no empty line. -/
theorem C9_read_loop_terminates_witness :
    (opened in_file_path OpenMode.in_ "ab\ncd".toList).read.1 ≠ [] ∧
    (opened in_file_path OpenMode.in_ "ab\ncd".toList).read.2.fs.unread.length <
      (opened in_file_path OpenMode.in_ "ab\ncd".toList).fs.unread.length ∧
    (∀ l ∈ (handler_on "ab\ncd".toList []).get_original_lines.1, l ≠ []) :=
  ⟨by decide,
    (C9_read_loop_terminates (opened in_file_path OpenMode.in_ "ab\ncd".toList)).2.2.1
      (by decide),
    (C9_read_loop_terminates (opened in_file_path OpenMode.in_ "ab\ncd".toList)).2.2.2.2.2
      (handler_on "ab\ncd".toList []) rfl⟩

/-- C10: file-level round trip.  When `Main::run` on input `I` and an empty
output produces `O`, and `Main::run` on input `O` and an empty output produces
the second output, that second output is the text of exactly the lines the
first run read, that is the lines of `I` before its first empty line, each
followed by a line terminator, unchanged and in order. -/
theorem C10_file_round_trip (input : List Char) :
    (Main.run (Main.mk (handler_on
        (Main.run (Main.mk (handler_on input []))).ioHandler.out_file.fs.file []))
      ).ioHandler.out_file.fs.file =
        unlines (handler_on input []).get_original_lines.1 ∧
    (handler_on input []).get_original_lines.1 =
        (file_lines input).takeWhile (fun l => !l.isEmpty) := by
  refine ⟨?_, get_original_lines_fresh input []⟩
  have hspec := takeWhile_lines_spec input
  have hrevspec : ∀ l ∈ ((file_lines input).takeWhile (fun l => !l.isEmpty)).map List.reverse,
      l ≠ [] ∧ '\n' ∉ l := by
    intro l hl
    rcases List.mem_map.1 hl with ⟨a, ha, rfl⟩
    have := hspec a ha
    exact ⟨by simpa using this.1, by simpa using this.2⟩
  rw [run_out_file input [], List.nil_append, run_out_file, List.nil_append,
    file_lines_unlines _ (fun l hl => (hrevspec l hl).2),
    takeWhile_all_nonempty _ (fun l hl => (hrevspec l hl).1),
    get_original_lines_fresh, List.map_map]
  simp

end FileStringReversal
